import Mathlib

/-!
Verification development for the guarded command execution engine of the
Shell AI Assistant repository.  The Python modules
`shell_ai/command_executor.py` and `shell_ai/assistant.py` are shallowly
embedded below: Python strings become `List Char`, the `subprocess` call
becomes an explicit `ProcResult` oracle, `input()` answers become explicit
arguments, and the mutable `self.history` list becomes explicit state
passing.  Machine-checked theorems about the embedding follow the
definitions.
-/

namespace ShellAI

/-! ### Python string primitives -/

/-- The ASCII whitespace characters recognised by Python's `str.split()` /
`str.strip()` (space, tab, newline, vertical tab, form feed, carriage
return). -/
def pyIsSpace (c : Char) : Bool :=
  (c == ' ') || (c == '\t') || (c == '\n') || (c == Char.ofNat 11) ||
  (c == Char.ofNat 12) || (c == '\r')

/-- ASCII lowercasing of one character, modelling Python `str.lower()` on
the ASCII inputs used by this program. -/
def lowChar (c : Char) : Char := c.toLower

/-- `s.lower()` on a Python string. -/
def lowerL (s : List Char) : List Char := s.map lowChar

/-- `b.startswith(a)` on Python strings. -/
def isPref : List Char → List Char → Bool
  | [], _ => true
  | _ :: _, [] => false
  | a :: as_, b :: bs => (a == b) && isPref as_ bs

/-- `a in b` on Python strings (substring containment). -/
def occursIn (m : List Char) : List Char → Bool
  | [] => isPref m []
  | c :: cs => isPref m (c :: cs) || occursIn m cs

/-- `s.strip()` on a Python string (ASCII whitespace). -/
def stripPy (s : List Char) : List Char :=
  ((s.dropWhile pyIsSpace).reverse.dropWhile pyIsSpace).reverse

/-- Fueled worker for `splitWs`; the fuel is an upper bound on the length
of the remaining input, so the fallback `[]` at fuel 0 is unreachable from
`splitWs`. -/
def splitGo : Nat → List Char → List (List Char)
  | 0, _ => []
  | fuel + 1, s =>
    match s.dropWhile pyIsSpace with
    | [] => []
    | c :: cs =>
      ((c :: cs).takeWhile (fun x => !pyIsSpace x)) ::
        splitGo fuel ((c :: cs).dropWhile (fun x => !pyIsSpace x))

/-- `s.split()` on a Python string: maximal runs of non-whitespace. -/
def splitWs (s : List Char) : List (List Char) := splitGo s.length s

/-- `' '.join(ws)` on a list of Python strings. -/
def joinWs : List (List Char) → List Char
  | [] => []
  | [w] => w
  | w :: x :: ws => w ++ ' ' :: joinWs (x :: ws)

/-- Fueled worker for `replAll`; fuel bounds the length of the remaining
input. -/
def replGo (k v : List Char) : Nat → List Char → List Char
  | 0, _ => []
  | _ + 1, [] => []
  | fuel + 1, c :: cs =>
    if isPref k (c :: cs) then
      v ++ replGo k v fuel (cs.drop (k.length - 1))
    else
      c :: replGo k v fuel cs

/-- `s.replace(k, v)` on Python strings for a nonempty pattern `k`:
leftmost, non-overlapping, scanning resumes after the inserted
replacement. -/
def replAll (k v s : List Char) : List Char := replGo k v s.length s

/-! Predicates used to reason about `replAll` and whitespace
normalisation. -/

/-- No nonempty suffix of `a` is comparable (either way) by the
`startswith` order with `m`: an occurrence of a space-free `m` can then
neither start inside `a` nor continue past it. -/
def spliceFree (a m : List Char) : Bool :=
  (List.range a.length).all (fun p => !isPref (a.drop p) m && !isPref m (a.drop p))

/-- No nonempty proper suffix of `x` is a `startswith`-prefix of `y`. -/
def noTailPref (x y : List Char) : Bool :=
  (List.range x.length).all (fun i => (i == 0) || !isPref (x.drop i) y)

/-- The first character is a space. -/
def hdSp (s : List Char) : Bool := s.head? == some ' '

/-- No two adjacent space characters. -/
def noDbl : List Char → Bool
  | [] => true
  | a :: t => !((a == ' ') && hdSp t) && noDbl t

/-- Empty, or starting with a non-whitespace character. -/
def headNS : List Char → Bool
  | [] => true
  | c :: _ => !pyIsSpace c

/-- Empty, or ending with a non-whitespace character. -/
def lastNS (s : List Char) : Bool := headNS s.reverse

/-- Every whitespace character in the string is a plain space. -/
def onlySp (s : List Char) : Bool := s.all (fun c => !pyIsSpace c || (c == ' '))

/-- Every word is nonempty and whitespace-free (the shape of `s.split()`
output). -/
def wordsOk (ws : List (List Char)) : Bool :=
  ws.all (fun w => !w.isEmpty && w.all (fun c => !pyIsSpace c))

/-! ### Regular expressions, as used by `CommandExecutor.DANGEROUS_PATTERNS`

The ten patterns in the source use only literal characters, the classes
`\s+` / `\s*`, and `.*`.  We embed exactly that fragment, with
`re.IGNORECASE` folded into literal comparison. -/

inductive RTok where
  /-- a literal character (compared case-insensitively, `re.IGNORECASE`) -/
  | lit (c : Char)
  /-- one or more whitespace characters (`\s+`) -/
  | ws1
  /-- zero or more whitespace characters (`\s*`) -/
  | ws0
  /-- zero or more characters other than newline (`.*`) -/
  | any0
deriving DecidableEq

/-- Fueled matcher: does the token list match a prefix of the text?  The
fuel is an upper bound on `ts.length + s.length`, so the fallback at fuel 0
is unreachable from `reMatch`. -/
def matchGo : Nat → List RTok → List Char → Bool
  | 0, _, _ => false
  | _ + 1, [], _ => true
  | _ + 1, .lit _ :: _, [] => false
  | fuel + 1, .lit c :: ts, x :: xs => (lowChar x == lowChar c) && matchGo fuel ts xs
  | _ + 1, .ws1 :: _, [] => false
  | fuel + 1, .ws1 :: ts, x :: xs => pyIsSpace x && matchGo fuel (.ws0 :: ts) xs
  | fuel + 1, .ws0 :: ts, s =>
    matchGo fuel ts s ||
      (match s with
       | [] => false
       | x :: xs => pyIsSpace x && matchGo fuel (.ws0 :: ts) xs)
  | fuel + 1, .any0 :: ts, s =>
    matchGo fuel ts s ||
      (match s with
       | [] => false
       | x :: xs => !(x == '\n') && matchGo fuel (.any0 :: ts) xs)

/-- Match the pattern at the start of the text (`re.match` at one
position). -/
def reMatch (ts : List RTok) (s : List Char) : Bool :=
  matchGo (ts.length + s.length + 1) ts s

/-- `re.search`: the pattern matches starting at some position of the
text. -/
def reSearch (ts : List RTok) : List Char → Bool
  | [] => reMatch ts []
  | c :: cs => reMatch ts (c :: cs) || reSearch ts cs

/-- Map a string of plain characters to literal tokens. -/
def lits (s : List Char) : List RTok := s.map RTok.lit

/-- `CommandExecutor.DANGEROUS_PATTERNS`: the raw regex source text (used
verbatim in the risk message) paired with its token form. -/
def DANGEROUS_PATTERNS : List (List Char × List RTok) :=
  [ ("rm\\s+-rf\\s+/".data,
      lits ("rm".data) ++ [.ws1] ++ lits ("-rf".data) ++ [.ws1] ++ lits ("/".data)),
    ("rm\\s+-rf\\s+\\*".data,
      lits ("rm".data) ++ [.ws1] ++ lits ("-rf".data) ++ [.ws1] ++ lits ("*".data)),
    ("dd\\s+if=.*of=/dev/".data,
      lits ("dd".data) ++ [.ws1] ++ lits ("if=".data) ++ [.any0] ++ lits ("of=/dev/".data)),
    ("mkfs".data, lits ("mkfs".data)),
    (">\\s*/dev/".data, lits (">".data) ++ [.ws0] ++ lits ("/dev/".data)),
    ("chmod\\s+-R\\s+777".data,
      lits ("chmod".data) ++ [.ws1] ++ lits ("-R".data) ++ [.ws1] ++ lits ("777".data)),
    ("chown\\s+-R\\s+root".data,
      lits ("chown".data) ++ [.ws1] ++ lits ("-R".data) ++ [.ws1] ++ lits ("root".data)),
    ("curl.*\\|\\s*bash".data,
      lits ("curl".data) ++ [.any0, .lit '|', .ws0] ++ lits ("bash".data)),
    ("wget.*\\|\\s*sh".data,
      lits ("wget".data) ++ [.any0, .lit '|', .ws0] ++ lits ("sh".data)),
    (":\\(\\)\\s*\\\x7b.*\\\x7d".data,
      lits (":()".data) ++ [.ws0, .lit (Char.ofNat 123), .any0, .lit (Char.ofNat 125)]) ]

/-! ### `CommandExecutor` -/

/-- Risk message for a matched pattern, `f"Matches dangerous pattern: \x7bpattern\x7d"`. -/
def dangerMsg (pat : List Char) : List Char := "Matches dangerous pattern: ".data ++ pat

/-- `CommandExecutor.is_dangerous`: pattern risks in list order, then the
`sudo` heuristic, the overwrite-redirect heuristic, and the pipe-to-shell
heuristic; dangerous iff the combined risk list is nonempty. -/
def is_dangerous (command : List Char) : Bool × List (List Char) :=
  let patRisks := (DANGEROUS_PATTERNS.filter (fun p => reSearch p.2 command)).map
    (fun p => dangerMsg p.1)
  let r1 := patRisks ++
    (if isPref ("sudo".data) (stripPy command) then ["Requires root/admin privileges".data] else [])
  let r2 := r1 ++
    (if occursIn (">".data) command && !occursIn (">>".data) command then
      ["May overwrite existing files".data] else [])
  let r3 := r2 ++
    (if occursIn ("|".data) command &&
        (occursIn ("bash".data) command || occursIn ("sh".data) command ||
          occursIn ("zsh".data) command) then
      ["Pipes to shell - could execute arbitrary code".data] else [])
  (!r3.isEmpty, r3)

/-- `CommandExecutor.validate_command`: rejects empty/whitespace-only text,
then scans for the three literal marker strings of `dangerous_chars`
(backtick, `$(...)`, and the dollar-brace five-character marker) in list
order. -/
def validate_command (command : List Char) : Bool × List Char :=
  if command.isEmpty || (stripPy command).isEmpty then
    (false, "Empty command".data)
  else if occursIn ("`".data) command then
    (false, "Potential shell injection: contains `".data)
  else if occursIn ("$(...)".data) command then
    (false, "Potential shell injection: contains $(...)".data)
  else if occursIn ("$\x7b...\x7d".data) command then
    (false, "Potential shell injection: contains $\x7b...\x7d".data)
  else
    (true, "Valid".data)

/-- One possible behaviour of the spawned subprocess: normal completion
with exit status and captured output, `subprocess.TimeoutExpired`, or any
other exception while spawning/running. -/
inductive ProcResult where
  | completed (returncode : Int) (stdout stderr : List Char)
  | timedOut
  | spawnError (msg : List Char)
deriving DecidableEq

/-- The result dictionary built by `CommandExecutor.execute`; keys absent
from a given code path are `none`. -/
structure Outcome where
  success : Bool
  command : List Char
  error : Option (List Char)
  stdout : List Char
  stderr : List Char
  returncode : Int
  dangerous : Option Bool
  risks : Option (List (List Char))
  dry_run : Option Bool
deriving DecidableEq

/-- Return value of the embedded `execute`: the outcome, the updated
`self.history`, and how many processes were spawned during the call. -/
structure ExecRes where
  out : Outcome
  hist : List Outcome
  spawnCount : Nat
deriving DecidableEq

/-- `CommandExecutor.execute`: validate, classify, honour `dry_run`, then
run the process (oracle `proc`).  `self.history` is passed and returned
explicitly; the source appends the result only on the normal-completion
path (`subprocess.run` returned), not on timeout or exception, and not on
validation failure or dry runs. -/
def execute (command : List Char) (dry_run : Bool) (proc : ProcResult)
    (history : List Outcome) : ExecRes :=
  let vr := validate_command command
  if !vr.1 then
    { out := { success := false, command := command,
               error := some ("Invalid command: ".data ++ vr.2),
               stdout := [], stderr := [], returncode := -1,
               dangerous := none, risks := none, dry_run := none },
      hist := history, spawnCount := 0 }
  else
    let dgr := is_dangerous command
    if dry_run then
      { out := { success := true, command := command, error := none,
                 stdout := "[DRY RUN] Would execute: ".data ++ command,
                 stderr := [], returncode := 0,
                 dangerous := some dgr.1, risks := some dgr.2, dry_run := some true },
        hist := history, spawnCount := 0 }
    else
      match proc with
      | .completed rc pout perr =>
        let o : Outcome :=
          { success := rc == 0, command := command, error := none,
            stdout := pout, stderr := perr, returncode := rc,
            dangerous := some dgr.1, risks := some dgr.2, dry_run := some false }
        { out := o, hist := history ++ [o], spawnCount := 1 }
      | .timedOut =>
        { out := { success := false, command := command, error := none,
                   stdout := [], stderr := "Command timed out after 30 seconds".data,
                   returncode := -1,
                   dangerous := some dgr.1, risks := some dgr.2, dry_run := some false },
          hist := history, spawnCount := 1 }
      | .spawnError m =>
        { out := { success := false, command := command, error := none,
                   stdout := [], stderr := "Execution failed: ".data ++ m,
                   returncode := -1,
                   dangerous := some dgr.1, risks := some dgr.2, dry_run := some false },
          hist := history, spawnCount := 1 }

/-- Return value of the embedded `execute_with_confirmation`, with
explicit flags recording whether the confirmation prompt was shown and
whether `execute` was invoked. -/
structure ConfRes where
  out : Outcome
  hist : List Outcome
  confirmAsked : Bool
  execCalled : Bool
  spawnCount : Nat
deriving DecidableEq

/-- `CommandExecutor.execute_with_confirmation`: when the command is
dangerous and `auto_confirm` is not set, prompt (`response` models the
`input()` answer) and cancel unless the lowercased answer is exactly
`"y"`; otherwise call `execute` with its default `dry_run=False`. -/
def execute_with_confirmation (command : List Char) (auto_confirm : Bool)
    (response : List Char) (proc : ProcResult) (history : List Outcome) : ConfRes :=
  let dgr := is_dangerous command
  if dgr.1 && !auto_confirm then
    if !(lowerL response == "y".data) then
      { out := { success := false, command := command,
                 error := some ("Execution cancelled by user".data),
                 stdout := [], stderr := [], returncode := -1,
                 dangerous := none, risks := none, dry_run := none },
        hist := history, confirmAsked := true, execCalled := false, spawnCount := 0 }
    else
      let e := execute command false proc history
      { out := e.out, hist := e.hist, confirmAsked := true, execCalled := true,
        spawnCount := e.spawnCount }
  else
    let e := execute command false proc history
    { out := e.out, hist := e.hist, confirmAsked := false, execCalled := true,
      spawnCount := e.spawnCount }

/-- The single-quote character, written by code point to keep apostrophes
out of string literals. -/
def quoteCh : Char := Char.ofNat 39

/-- The literal part of the regex `No module named '([^']+)'` up to the
capture group. -/
def noModulePat : List Char := "No module named ".data ++ [quoteCh]

/-- `re.search("No module named '([^']+)'", s)` returning the capture:
at each position, the literal must match and be followed by at least one
non-quote character and then a closing quote. -/
def extractModule : List Char → Option (List Char)
  | [] => none
  | c :: cs =>
    if isPref noModulePat (c :: cs) then
      let rest := (c :: cs).drop noModulePat.length
      let m := rest.takeWhile (fun x => !(x == quoteCh))
      if !m.isEmpty && m.length < rest.length then some m
      else extractModule cs
    else extractModule cs

/-- `CommandExecutor.suggest_fix` over the fields it reads from the outcome
dictionary (`stderr`, `command`).  The branch chain is translated in
source order.  A Python `IndexError` (raised by `command.split()[0]` when
the command has no tokens) is modelled as `Except.error`. -/
def suggest_fix (stderrF commandF : List Char) : Except (List Char) (List (List Char)) :=
  let error_text := lowerL stderrF
  if occursIn ("command not found".data) error_text then
    match splitWs commandF with
    | [] => Except.error ("IndexError: list index out of range".data)
    | cmd_name :: _ =>
      Except.ok [ "Install ".data ++ cmd_name ++ " using your package manager".data,
                  "Check if ".data ++ cmd_name ++ " is in your PATH".data,
                  "Check for typos in the command name".data ]
  else if occursIn ("permission denied".data) error_text then
    Except.ok [ "Try with sudo: sudo ".data ++ commandF,
                "Check file permissions with ls -l".data,
                "Ensure you have access to the file/directory".data ]
  else if occursIn ("no such file or directory".data) error_text then
    Except.ok [ "Check if the file/directory exists".data,
                "Verify the path is correct".data,
                "Use tab completion to verify paths".data ]
  else if occursIn ("apt".data) error_text || occursIn ("yum".data) error_text ||
      occursIn ("dnf".data) error_text || occursIn ("brew".data) error_text then
    if occursIn ("lock".data) error_text then
      Except.ok [ "Another package manager is running".data,
                  "Wait for it to finish or kill the process".data ]
    else if occursIn ("not found".data) error_text then
      Except.ok [ "Update package lists first".data,
                  "Check package name spelling".data ]
    else Except.ok []
  else if occursIn ("git".data) commandF then
    if occursIn ("not a git repository".data) error_text then
      Except.ok [ "Initialize a git repository: git init".data,
                  "Clone an existing repository".data ]
    else if occursIn ("merge conflict".data) error_text then
      Except.ok [ "Resolve conflicts manually".data,
                  "Use git status to see conflicted files".data ]
    else Except.ok []
  else if occursIn ("python".data) commandF || occursIn ("pip".data) commandF then
    if occursIn ("modulenotfounderror".data) error_text then
      match extractModule stderrF with
      | some m => Except.ok [ "Install missing module: pip install ".data ++ m ]
      | none => Except.ok []
    else if occursIn ("syntaxerror".data) error_text then
      Except.ok [ "Check Python syntax".data,
                  "Verify Python version compatibility".data ]
    else Except.ok []
  else Except.ok []

/-- `CommandExecutor.clean_command`: strip, collapse whitespace runs with
`' '.join(command.split())`, then apply the four typo replacements in
dictionary (insertion) order. -/
def clean_command (command : List Char) : List Char :=
  let c1 := stripPy command
  let c2 := joinWs (splitWs c1)
  let c3 := replAll ("ls-la".data) ("ls -la".data) c2
  let c4 := replAll ("cd~".data) ("cd ~".data) c3
  let c5 := replAll ("cd..".data) ("cd ..".data) c4
  replAll ("rm-rf".data) ("rm -rf".data) c5

/-- The whitespace-normalisation stage of `clean_command`:
`' '.join(command.strip().split())`. -/
def normPy (s : List Char) : List Char := joinWs (splitWs (stripPy s))

/-- The typo-replacement stage of `clean_command`, in the source's
dictionary order. -/
def replChain (u : List Char) : List Char :=
  replAll ("rm-rf".data) ("rm -rf".data)
    (replAll ("cd..".data) ("cd ..".data)
      (replAll ("cd~".data) ("cd ~".data)
        (replAll ("ls-la".data) ("ls -la".data) u)))

/-- The history entries a single `execute` call appends (computed from an
empty starting history). -/
def appended (command : List Char) (dry_run : Bool) (proc : ProcResult) : List Outcome :=
  (execute command dry_run proc []).hist

/-- Run a sequence of `execute` calls, threading `self.history`. -/
def runCalls : List (List Char × Bool × ProcResult) → List Outcome → List Outcome
  | [], history => history
  | (c, dry, pr) :: rest, history => runCalls rest (execute c dry pr history).hist

/-- The history entries produced by a sequence of calls, in arrival
order. -/
def loggedAll : List (List Char × Bool × ProcResult) → List Outcome
  | [] => []
  | (c, dry, pr) :: rest => appended c dry pr ++ loggedAll rest

/-! ### `ShellAIAssistant.execute_command` (the repair loop)

Each interaction round bundles the external answers one recursion level of
`execute_command` can consume: the confirmation-prompt answer, the process
behaviour, the answer to the "AI help?" question, the provider's suggested
command, and whether `get_user_choice` eventually returned `execute`. -/

structure Round where
  resp : List Char
  proc : ProcResult
  helpChoice : List Char
  suggCmd : List Char
  fixExec : Bool

/-- `ShellAIAssistant.execute_command`, returning the boolean the source
returns together with the number of `get_command_suggestion` calls (the
external `SuggestionProvider` invocations).  The recursion
`return self.execute_command(suggestion['command'])` consumes the next
round; an exhausted round list models the session ending with no further
input. -/
def execute_command : List Char → Bool → List Round → Bool × Nat
  | _, _, [] => (false, 0)
  | cmd, safe, r :: rest =>
    let e := execute_with_confirmation cmd safe r.resp r.proc []
    if !e.out.success && !(e.out.returncode == -1) then
      if lowerL (stripPy r.helpChoice) == "y".data ||
          lowerL (stripPy r.helpChoice) == "yes".data then
        if r.fixExec then
          let inner := execute_command r.suggCmd false rest
          (inner.1, inner.2 + 1)
        else (e.out.success, 1)
      else (e.out.success, 0)
    else (e.out.success, 0)

end ShellAI

namespace ShellAI

/-! ### Unfolding equations for the fueled workers -/

theorem replGo_zero (k v : List Char) (s : List Char) : replGo k v 0 s = [] := rfl

theorem replGo_succ_nil (k v : List Char) (n : Nat) : replGo k v (n + 1) [] = [] := rfl

theorem replGo_succ_cons (k v : List Char) (n : Nat) (c : Char) (cs : List Char) :
    replGo k v (n + 1) (c :: cs) =
      if isPref k (c :: cs) then v ++ replGo k v n (cs.drop (k.length - 1))
      else c :: replGo k v n cs := rfl

theorem lengthDropLe (p : Char → Bool) : ∀ s : List Char, (s.dropWhile p).length ≤ s.length := by
  intro s
  induction s with
  | nil => simp
  | cons c cs ih =>
    by_cases h : p c = true
    · simp only [List.dropWhile_cons, h, if_true]
      exact Nat.le_succ_of_le ih
    · simp [List.dropWhile_cons, h]

theorem dropWhileHeadFalse (p : Char → Bool) :
    ∀ (s : List Char) (c : Char) (cs : List Char), s.dropWhile p = c :: cs → p c = false := by
  intro s
  induction s with
  | nil => intro c cs h; simp at h
  | cons a t ih =>
    intro c cs h
    by_cases hp : p a = true
    · rw [List.dropWhile_cons, if_pos hp] at h
      exact ih c cs h
    · rw [List.dropWhile_cons, if_neg hp] at h
      cases h
      exact Bool.not_eq_true _ ▸ (by simpa using hp)

theorem replGo_stable (k v : List Char) :
    ∀ n m s, s.length ≤ n → s.length ≤ m → replGo k v n s = replGo k v m s := by
  intro n
  induction n with
  | zero =>
    intro m s hn _
    have hs : s = [] := List.length_eq_zero.mp (Nat.le_zero.mp hn)
    subst hs
    cases m <;> rfl
  | succ n ih =>
    intro m s hn hm
    cases m with
    | zero =>
      have hs : s = [] := List.length_eq_zero.mp (Nat.le_zero.mp hm)
      subst hs
      rfl
    | succ m =>
      cases s with
      | nil => rfl
      | cons c cs =>
        have hcs : cs.length ≤ n := by
          have := hn; simp only [List.length_cons] at this; omega
        have hcs' : cs.length ≤ m := by
          have := hm; simp only [List.length_cons] at this; omega
        rw [replGo_succ_cons, replGo_succ_cons]
        by_cases hp : isPref k (c :: cs) = true
        · rw [if_pos hp, if_pos hp]
          have hd : (cs.drop (k.length - 1)).length ≤ cs.length := by
            rw [List.length_drop]; omega
          exact congrArg (v ++ ·) (ih m _ (le_trans hd hcs) (le_trans hd hcs'))
        · rw [if_neg hp, if_neg hp]
          exact congrArg (c :: ·) (ih m cs hcs hcs')

theorem replAll_nil (k v : List Char) : replAll k v [] = [] := rfl

theorem replAll_cons_pos {k : List Char} (v : List Char) {c : Char} {cs : List Char}
    (hp : isPref k (c :: cs) = true) :
    replAll k v (c :: cs) = v ++ replAll k v (cs.drop (k.length - 1)) := by
  unfold replAll
  rw [show (c :: cs).length = cs.length + 1 from rfl, replGo_succ_cons, if_pos hp]
  have hd : (cs.drop (k.length - 1)).length ≤ cs.length := by
    rw [List.length_drop]; omega
  exact congrArg (v ++ ·) (replGo_stable k v _ _ _ hd (le_refl _))

theorem replAll_cons_neg {k : List Char} (v : List Char) {c : Char} {cs : List Char}
    (hp : isPref k (c :: cs) = false) :
    replAll k v (c :: cs) = c :: replAll k v cs := by
  unfold replAll
  rw [show (c :: cs).length = cs.length + 1 from rfl, replGo_succ_cons,
    if_neg (by simp [hp])]

theorem splitGo_succ (n : Nat) (s : List Char) :
    splitGo (n + 1) s =
      match s.dropWhile pyIsSpace with
      | [] => []
      | c :: cs =>
        ((c :: cs).takeWhile (fun x => !pyIsSpace x)) ::
          splitGo n ((c :: cs).dropWhile (fun x => !pyIsSpace x)) := rfl

theorem splitGo_stable :
    ∀ n m s, s.length ≤ n → s.length ≤ m → splitGo n s = splitGo m s := by
  intro n
  induction n with
  | zero =>
    intro m s hn _
    have hs : s = [] := List.length_eq_zero.mp (Nat.le_zero.mp hn)
    subst hs
    cases m with
    | zero => rfl
    | succ m => rw [splitGo_succ]; rfl
  | succ n ih =>
    intro m s hn hm
    cases m with
    | zero =>
      have hs : s = [] := List.length_eq_zero.mp (Nat.le_zero.mp hm)
      subst hs
      rw [splitGo_succ]; rfl
    | succ m =>
      rw [splitGo_succ, splitGo_succ]
      cases hdw : s.dropWhile pyIsSpace with
      | nil => rfl
      | cons c cs =>
        have hc : pyIsSpace c = false := dropWhileHeadFalse _ s c cs hdw
        have hlen : (c :: cs).length ≤ s.length := hdw ▸ lengthDropLe pyIsSpace s
        have hrec : ((c :: cs).dropWhile (fun x => !pyIsSpace x)).length ≤ cs.length := by
          rw [List.dropWhile_cons, if_pos (by simp [hc])]
          exact lengthDropLe _ cs
        have h1 : ((c :: cs).dropWhile (fun x => !pyIsSpace x)).length ≤ n := by
          have : cs.length + 1 ≤ s.length := by simpa using hlen
          omega
        have h2 : ((c :: cs).dropWhile (fun x => !pyIsSpace x)).length ≤ m := by
          have : cs.length + 1 ≤ s.length := by simpa using hlen
          omega
        exact congrArg _ (ih m _ h1 h2)

theorem splitWs_nil : splitWs [] = [] := rfl

theorem splitWs_of_drop_nil {s : List Char} (h : s.dropWhile pyIsSpace = []) :
    splitWs s = [] := by
  unfold splitWs
  cases hn : s.length with
  | zero => rfl
  | succ n => rw [splitGo_succ, h]

theorem splitWs_of_drop_cons {s : List Char} {c : Char} {cs : List Char}
    (h : s.dropWhile pyIsSpace = c :: cs) :
    splitWs s =
      ((c :: cs).takeWhile (fun x => !pyIsSpace x)) ::
        splitWs ((c :: cs).dropWhile (fun x => !pyIsSpace x)) := by
  unfold splitWs
  cases hn : s.length with
  | zero =>
    have hs : s = [] := List.length_eq_zero.mp hn
    subst hs; simp at h
  | succ n =>
    rw [splitGo_succ, h]
    have hc : pyIsSpace c = false := dropWhileHeadFalse _ s c cs h
    have hlen : (c :: cs).length ≤ s.length := h ▸ lengthDropLe pyIsSpace s
    have hrec : ((c :: cs).dropWhile (fun x => !pyIsSpace x)).length ≤ cs.length := by
      rw [List.dropWhile_cons, if_pos (by simp [hc])]
      exact lengthDropLe _ cs
    have h1 : ((c :: cs).dropWhile (fun x => !pyIsSpace x)).length ≤ n := by
      have : cs.length + 1 ≤ s.length := by simpa using hlen
      omega
    exact congrArg _ (splitGo_stable n _ _ h1 (le_refl _))

/-! ### Facts about `isPref` and `occursIn` -/

theorem isPref_nil (s : List Char) : isPref [] s = true := by cases s <;> rfl

theorem isPref_refl : ∀ s : List Char, isPref s s = true := by
  intro s
  induction s with
  | nil => rfl
  | cons c cs ih => simp [isPref, ih]

theorem isPref_length : ∀ {m s : List Char}, isPref m s = true → m.length ≤ s.length := by
  intro m
  induction m with
  | nil => intro s _; simp
  | cons a as_ ih =>
    intro s h
    cases s with
    | nil => simp [isPref] at h
    | cons b bs =>
      simp only [isPref, Bool.and_eq_true] at h
      simpa using Nat.succ_le_succ (ih h.2)

theorem isPref_append_self : ∀ (a t : List Char), isPref a (a ++ t) = true := by
  intro a t
  induction a with
  | nil => exact isPref_nil t
  | cons c cs ih => simp [isPref, ih]

theorem isPref_split : ∀ {p : List Char} {x q : List Char}, isPref x (p ++ q) = true →
    isPref x p = true ∨ ∃ x', x = p ++ x' ∧ isPref x' q = true := by
  intro p
  induction p with
  | nil =>
    intro x q h
    exact Or.inr ⟨x, rfl, h⟩
  | cons b p ih =>
    intro x q h
    cases x with
    | nil => exact Or.inl (isPref_nil _)
    | cons a xs =>
      simp only [List.cons_append, isPref, Bool.and_eq_true, beq_iff_eq] at h
      obtain ⟨hab, h2⟩ := h
      subst hab
      rcases ih h2 with h3 | ⟨x', hx, h4⟩
      · exact Or.inl (by simp [isPref, h3])
      · exact Or.inr ⟨x', by simp [hx], h4⟩

theorem isPref_to_parts {m a X : List Char} (h : isPref m (a ++ X) = true) :
    isPref m a = true ∨ isPref a m = true := by
  rcases isPref_split h with h1 | ⟨x', hx, _⟩
  · exact Or.inl h1
  · exact Or.inr (hx ▸ isPref_append_self a x')

theorem isPref_space_free {m u w : List Char} (hm : ∀ c ∈ m, c ≠ ' ')
    (h : isPref m (u ++ ' ' :: w) = true) : isPref m u = true := by
  rcases isPref_split h with h1 | ⟨x', hx, h2⟩
  · exact h1
  · cases x' with
    | nil => simpa [hx] using isPref_refl u
    | cons y ys =>
      simp only [isPref, Bool.and_eq_true, beq_iff_eq] at h2
      exact absurd h2.1 (hm y (by simp [hx]))

theorem occursIn_cons (m : List Char) (c : Char) (cs : List Char) :
    occursIn m (c :: cs) = (isPref m (c :: cs) || occursIn m cs) := rfl

theorem occursIn_of_isPref {m s : List Char} (h : isPref m s = true) : occursIn m s = true := by
  cases s with
  | nil => exact h
  | cons c cs => simp [occursIn_cons, h]

theorem occursIn_false_head {m : List Char} {c : Char} {cs : List Char}
    (h : occursIn m (c :: cs) = false) : isPref m (c :: cs) = false := by
  rw [occursIn_cons] at h
  exact (Bool.or_eq_false_iff.mp h).1

theorem occursIn_false_tail {m : List Char} {c : Char} {cs : List Char}
    (h : occursIn m (c :: cs) = false) : occursIn m cs = false := by
  rw [occursIn_cons] at h
  exact (Bool.or_eq_false_iff.mp h).2

theorem occursIn_drop {m : List Char} :
    ∀ (n : Nat) (s : List Char), occursIn m s = false → occursIn m (s.drop n) = false := by
  intro n
  induction n with
  | zero => intro s h; simpa using h
  | succ n ih =>
    intro s h
    cases s with
    | nil => simpa using h
    | cons c cs => exact ih cs (occursIn_false_tail h)

theorem occursIn_of_long : ∀ {m s : List Char}, s.length < m.length → occursIn m s = false := by
  intro m s
  induction s with
  | nil =>
    intro h
    cases m with
    | nil => simp at h
    | cons a as_ => rfl
  | cons c cs ih =>
    intro h
    rw [occursIn_cons, Bool.or_eq_false_iff]
    constructor
    · by_contra hp
      have := isPref_length (by simpa using Bool.of_not_eq_false hp)
      omega
    · exact ih (by simp at h ⊢; omega)

/-! ### Splicing lemmas: where a space-free pattern can occur after
surgery on a string -/

theorem occursIn_space_glue {m : List Char} (hm : ∀ c ∈ m, c ≠ ' ') :
    ∀ {a X : List Char}, occursIn m a = false → occursIn m X = false →
      occursIn m (a ++ ' ' :: X) = false := by
  intro a
  induction a with
  | nil =>
    intro X ha hX
    cases m with
    | nil => simp [occursIn, isPref] at ha
    | cons d ds =>
      rw [List.nil_append, occursIn_cons, Bool.or_eq_false_iff]
      refine ⟨?_, hX⟩
      have hd : d ≠ ' ' := hm d (by simp)
      simp [isPref, hd]
  | cons b bs ih =>
    intro X ha hX
    rw [List.cons_append, occursIn_cons, Bool.or_eq_false_iff]
    refine ⟨?_, ih (occursIn_false_tail ha) hX⟩
    cases hp : isPref m ((b :: bs) ++ ' ' :: X) with
    | false => exact hp
    | true =>
      have h2 := occursIn_of_isPref (isPref_space_free hm hp)
      exact absurd h2 (by simp [ha])

theorem spliceFree_parts {a m : List Char} (h : spliceFree a m = true) :
    ∀ p, p < a.length → isPref (a.drop p) m = false ∧ isPref m (a.drop p) = false := by
  intro p hp
  have h1 := List.all_eq_true.mp h p (List.mem_range.mpr hp)
  simp only [Bool.and_eq_true, Bool.not_eq_true'] at h1
  exact h1

theorem spliceFree_tail {b : Char} {bs m : List Char} (h : spliceFree (b :: bs) m = true) :
    spliceFree bs m = true := by
  apply List.all_eq_true.mpr
  intro p hp
  have hlt : p < bs.length := List.mem_range.mp hp
  have h1 := List.all_eq_true.mp h (p + 1)
    (List.mem_range.mpr (by simp only [List.length_cons]; omega))
  simpa [List.drop_succ_cons] using h1

theorem occursIn_splice {m : List Char} :
    ∀ {a X : List Char}, spliceFree a m = true → occursIn m X = false →
      occursIn m (a ++ X) = false := by
  intro a
  induction a with
  | nil => intro X _ hX; simpa using hX
  | cons b bs ih =>
    intro X hsf hX
    rw [List.cons_append, occursIn_cons, Bool.or_eq_false_iff]
    have hparts := spliceFree_parts hsf 0 (by simp)
    simp only [List.drop_zero] at hparts
    refine ⟨?_, ih (spliceFree_tail hsf) hX⟩
    cases hp : isPref m ((b :: bs) ++ X) with
    | false => exact hp
    | true =>
      rcases isPref_to_parts hp with h1 | h2
      · exact absurd h1 (by simp [hparts.2])
      · exact absurd h2 (by simp [hparts.1])

theorem isPref_replAll {k k1 k2 v : List Char} (hv : v = k1 ++ ' ' :: k2) :
    ∀ (n : Nat) (s : List Char), s.length ≤ n → ∀ (x : List Char), (∀ c ∈ x, c ≠ ' ') →
      isPref x (replAll k v s) = true →
      ∃ a b, x = a ++ b ∧ isPref a s = true ∧ isPref b k1 = true := by
  intro n
  induction n with
  | zero =>
    intro s hs x hx h
    have hnil : s = [] := List.length_eq_zero.mp (Nat.le_zero.mp hs)
    subst hnil
    rw [replAll_nil] at h
    cases x with
    | nil => exact ⟨[], [], rfl, isPref_nil _, isPref_nil _⟩
    | cons a as_ => simp [isPref] at h
  | succ n ih =>
    intro s hs x hx h
    cases s with
    | nil =>
      rw [replAll_nil] at h
      cases x with
      | nil => exact ⟨[], [], rfl, isPref_nil _, isPref_nil _⟩
      | cons a as_ => simp [isPref] at h
    | cons c cs =>
      have hcs : cs.length ≤ n := by
        simp only [List.length_cons] at hs; omega
      cases hp : isPref k (c :: cs) with
      | true =>
        rw [replAll_cons_pos v hp, hv, List.append_assoc, List.cons_append] at h
        rcases isPref_split h with h1 | ⟨x', hx', h2⟩
        · exact ⟨[], x, rfl, isPref_nil _, h1⟩
        · cases x' with
          | nil =>
            refine ⟨[], x, rfl, isPref_nil _, ?_⟩
            rw [hx', List.append_nil]
            exact isPref_refl k1
          | cons y ys =>
            exfalso
            simp only [isPref, Bool.and_eq_true, beq_iff_eq] at h2
            exact hx y (by simp [hx']) h2.1
      | false =>
        rw [replAll_cons_neg v hp] at h
        cases x with
        | nil => exact ⟨[], [], rfl, isPref_nil _, isPref_nil _⟩
        | cons d xs =>
          simp only [isPref, Bool.and_eq_true, beq_iff_eq] at h
          obtain ⟨hdc, h2⟩ := h
          subst hdc
          obtain ⟨a', b', hx', h3, h4⟩ :=
            ih cs hcs xs (fun e he => hx e (by simp [he])) h2
          exact ⟨d :: a', b', by simp [hx'], by simp [isPref, h3], h4⟩

theorem replAll_no_self {k k1 k2 v : List Char} (hv : v = k1 ++ ' ' :: k2)
    (hkk : k = k1 ++ k2) (hk2 : k2 ≠ [])
    (hsp : ∀ c ∈ k, c ≠ ' ') (hnt : noTailPref k k1 = true)
    (hsf : spliceFree k2 k = true) :
    ∀ (n : Nat) (s : List Char), s.length ≤ n → occursIn k (replAll k v s) = false := by
  have hkne : k ≠ [] := by
    rw [hkk]
    intro hemp
    exact hk2 (List.append_eq_nil.mp hemp).2
  intro n
  induction n with
  | zero =>
    intro s hs
    have hnil : s = [] := List.length_eq_zero.mp (Nat.le_zero.mp hs)
    subst hnil
    rw [replAll_nil]
    cases hk : k with
    | nil => exact absurd hk hkne
    | cons d kr => rfl
  | succ n ih =>
    intro s hs
    cases s with
    | nil =>
      rw [replAll_nil]
      cases hk : k with
      | nil => exact absurd hk hkne
      | cons d kr => rfl
    | cons c cs =>
      have hcs : cs.length ≤ n := by
        simp only [List.length_cons] at hs; omega
      cases hp : isPref k (c :: cs) with
      | true =>
        have hd : (cs.drop (k.length - 1)).length ≤ n := by
          rw [List.length_drop]; omega
        have hrec := ih _ hd
        rw [hv] at hrec
        rw [replAll_cons_pos v hp, hv, List.append_assoc, List.cons_append]
        apply occursIn_space_glue hsp
        · apply occursIn_of_long
          rw [hkk, List.length_append]
          cases k2 with
          | nil => exact absurd rfl hk2
          | cons e es => simp
        · exact occursIn_splice hsf hrec
      | false =>
        rw [replAll_cons_neg v hp, occursIn_cons, Bool.or_eq_false_iff]
        refine ⟨?_, ih cs hcs⟩
        cases hq : isPref k (c :: replAll k v cs) with
        | false => rfl
        | true =>
          exfalso
          cases hk : k with
          | nil => exact absurd hk hkne
          | cons d kr =>
            rw [hk] at hq
            simp only [isPref, Bool.and_eq_true, beq_iff_eq] at hq
            obtain ⟨hdc, hq2⟩ := hq
            have hkrsp : ∀ e ∈ kr, e ≠ ' ' := fun e he => hsp e (by simp [hk, he])
            obtain ⟨a, b, hkr, ha, hb⟩ := isPref_replAll hv n cs hcs kr hkrsp hq2
            cases b with
            | nil =>
              have hista : isPref k (c :: cs) = true := by
                rw [hk, hdc]
                have : kr = a := by simpa using hkr
                simp [isPref, this, ha]
              exact absurd hista (by simp [hp])
            | cons b0 bs =>
              have hi : k.drop (a.length + 1) = b0 :: bs := by
                rw [hk, hkr, List.drop_succ_cons, List.drop_left]
              have hmem : a.length + 1 < k.length := by
                rw [hk, hkr]
                simp only [List.length_cons, List.length_append]
                omega
              have hall := List.all_eq_true.mp hnt (a.length + 1) (List.mem_range.mpr hmem)
              rw [hi] at hall
              simp [hb] at hall

theorem replAll_no_other {k k1 k2 v m : List Char} (hv : v = k1 ++ ' ' :: k2)
    (hm : m ≠ []) (hmsp : ∀ c ∈ m, c ≠ ' ')
    (h1 : occursIn m k1 = false) (hsf : spliceFree k2 m = true)
    (hnt : noTailPref m k1 = true) :
    ∀ (n : Nat) (s : List Char), s.length ≤ n → occursIn m s = false →
      occursIn m (replAll k v s) = false := by
  intro n
  induction n with
  | zero =>
    intro s hs hocc
    have hnil : s = [] := List.length_eq_zero.mp (Nat.le_zero.mp hs)
    subst hnil
    rwa [replAll_nil]
  | succ n ih =>
    intro s hs hocc
    cases s with
    | nil => rwa [replAll_nil]
    | cons c cs =>
      have hcs : cs.length ≤ n := by
        simp only [List.length_cons] at hs; omega
      cases hp : isPref k (c :: cs) with
      | true =>
        have hd : (cs.drop (k.length - 1)).length ≤ n := by
          rw [List.length_drop]; omega
        have hrec := ih _ hd (occursIn_drop _ _ (occursIn_false_tail hocc))
        rw [hv] at hrec
        rw [replAll_cons_pos v hp, hv, List.append_assoc, List.cons_append]
        exact occursIn_space_glue hmsp h1 (occursIn_splice hsf hrec)
      | false =>
        rw [replAll_cons_neg v hp, occursIn_cons, Bool.or_eq_false_iff]
        refine ⟨?_, ih cs hcs (occursIn_false_tail hocc)⟩
        cases hq : isPref m (c :: replAll k v cs) with
        | false => rfl
        | true =>
          exfalso
          cases hmk : m with
          | nil => exact absurd hmk hm
          | cons d mr =>
            rw [hmk] at hq
            simp only [isPref, Bool.and_eq_true, beq_iff_eq] at hq
            obtain ⟨hdc, hq2⟩ := hq
            have hmrsp : ∀ e ∈ mr, e ≠ ' ' := fun e he => hmsp e (by simp [hmk, he])
            obtain ⟨a, b, hmr, ha, hb⟩ := isPref_replAll hv n cs hcs mr hmrsp hq2
            cases b with
            | nil =>
              have hmpref : isPref m (c :: cs) = true := by
                rw [hmk, hdc]
                have : mr = a := by simpa using hmr
                simp [isPref, this, ha]
              exact absurd (occursIn_of_isPref hmpref) (by simp [hocc])
            | cons b0 bs =>
              have hi : m.drop (a.length + 1) = b0 :: bs := by
                rw [hmk, hmr, List.drop_succ_cons, List.drop_left]
              have hmem : a.length + 1 < m.length := by
                rw [hmk, hmr]
                simp only [List.length_cons, List.length_append]
                omega
              have hall := List.all_eq_true.mp hnt (a.length + 1) (List.mem_range.mpr hmem)
              rw [hi] at hall
              simp [hb] at hall

theorem replAll_id {k v : List Char} : ∀ {s : List Char}, occursIn k s = false →
    replAll k v s = s := by
  intro s
  induction s with
  | nil => intro _; rfl
  | cons c cs ih =>
    intro h
    rw [replAll_cons_neg v (occursIn_false_head h)]
    exact congrArg (c :: ·) (ih (occursIn_false_tail h))

/-! ### Canonical-form facts about whitespace normalisation -/

theorem headNS_append_left {u : List Char} (v : List Char) (hu : u ≠ []) :
    headNS (u ++ v) = headNS u := by
  cases u with
  | nil => exact absurd rfl hu
  | cons c cs => rfl

theorem hdSp_append_left {u : List Char} (v : List Char) (hu : u ≠ []) :
    hdSp (u ++ v) = hdSp u := by
  cases u with
  | nil => exact absurd rfl hu
  | cons c cs => rfl

theorem lastNS_append {t : List Char} (a : List Char) (ht : t ≠ []) :
    lastNS (a ++ t) = lastNS t := by
  unfold lastNS
  rw [List.reverse_append _ _]
  exact headNS_append_left _ (by simpa using ht)

theorem word_headNS {w : List Char} (hsp : ∀ c ∈ w, pyIsSpace c = false) :
    headNS w = true := by
  cases w with
  | nil => rfl
  | cons c cs => simp [headNS, hsp c (by simp)]

theorem word_lastNS {w : List Char} (hw : w ≠ []) (hsp : ∀ c ∈ w, pyIsSpace c = false) :
    lastNS w = true := by
  unfold lastNS
  cases hrev : w.reverse with
  | nil => exact absurd (List.reverse_eq_nil_iff.mp hrev) hw
  | cons c cs =>
    have hc : c ∈ w := List.mem_reverse.mp (by simp [hrev])
    simp [headNS, hsp c hc]

theorem word_hdSp {w : List Char} (hsp : ∀ c ∈ w, pyIsSpace c = false) :
    hdSp w = false := by
  cases w with
  | nil => rfl
  | cons c cs =>
    have hc : c ≠ ' ' := by
      intro he
      have := hsp c (by simp)
      rw [he] at this
      exact absurd this (by decide)
    simp [hdSp, hc]

theorem word_noDbl {w : List Char} (hsp : ∀ c ∈ w, pyIsSpace c = false) :
    noDbl w = true := by
  induction w with
  | nil => rfl
  | cons c cs ih =>
    have hc : (c == ' ') = false := by
      have h1 := hsp c (by simp)
      cases hq : (c == ' ') with
      | false => rfl
      | true =>
        rw [show c = ' ' from by simpa using hq] at h1
        exact absurd h1 (by decide)
    simp [noDbl, hc, ih (fun e he => hsp e (by simp [he]))]

theorem noDbl_tail {a : Char} {t : List Char} (h : noDbl (a :: t) = true) :
    noDbl t = true := by
  simp only [noDbl, Bool.and_eq_true] at h
  exact h.2

theorem noDbl_cons_word : ∀ {w t : List Char}, (∀ c ∈ w, pyIsSpace c = false) →
    noDbl t = true → noDbl (w ++ t) = true := by
  intro w
  induction w with
  | nil => intro t _ ht; simpa using ht
  | cons c cs ih =>
    intro t hsp ht
    have hc : (c == ' ') = false := by
      cases hq : (c == ' ') with
      | false => rfl
      | true =>
        have h1 := hsp c (by simp)
        rw [show c = ' ' from by simpa using hq] at h1
        exact absurd h1 (by decide)
    rw [List.cons_append]
    simp [noDbl, hc]
    exact ih (fun e he => hsp e (by simp [he])) ht

theorem noDbl_suffix : ∀ {a b : List Char}, noDbl (a ++ b) = true → noDbl b = true := by
  intro a
  induction a with
  | nil => intro b h; simpa using h
  | cons c cs ih =>
    intro b h
    rw [List.cons_append] at h
    exact ih (noDbl_tail h)

theorem noDbl_drop {s : List Char} (n : Nat) (h : noDbl s = true) :
    noDbl (s.drop n) = true := by
  have := List.take_append_drop n s
  exact noDbl_suffix (this.symm ▸ h)

theorem onlySp_mem {s : List Char} (h : onlySp s = true) {c : Char} (hc : c ∈ s)
    (hw : pyIsSpace c = true) : c = ' ' := by
  have h1 := List.all_eq_true.mp h c hc
  simp [hw] at h1
  exact h1

theorem onlySp_suffix : ∀ {a b : List Char}, onlySp (a ++ b) = true → onlySp b = true := by
  intro a b h
  unfold onlySp at h ⊢
  rw [List.all_append, Bool.and_eq_true] at h
  exact h.2

theorem onlySp_drop {s : List Char} (n : Nat) (h : onlySp s = true) :
    onlySp (s.drop n) = true := by
  have := List.take_append_drop n s
  exact onlySp_suffix (this.symm ▸ h)

theorem lastNS_drop {s : List Char} (n : Nat) (h : lastNS s = true)
    (hne : s.drop n ≠ []) : lastNS (s.drop n) = true := by
  have hsplit : s.take n ++ s.drop n = s := List.take_append_drop n s
  rw [← hsplit, lastNS_append _ hne] at h
  exact h

theorem headNS_to_hdSp {s : List Char} (h : headNS s = true) : hdSp s = false := by
  cases s with
  | nil => rfl
  | cons c cs =>
    have hc : pyIsSpace c = false := by simpa [headNS] using h
    have : c ≠ ' ' := by
      intro he
      rw [he] at hc
      exact absurd hc (by decide)
    simp [hdSp, this]

/-! `s.split()` produces nonempty whitespace-free words, and `' '.join` of
such words is in canonical form. -/

theorem wordsOk_splitWs : ∀ (n : Nat) (s : List Char), s.length ≤ n →
    wordsOk (splitWs s) = true := by
  intro n
  induction n with
  | zero =>
    intro s hs
    have hnil : s = [] := List.length_eq_zero.mp (Nat.le_zero.mp hs)
    subst hnil
    rfl
  | succ n ih =>
    intro s hs
    cases hdw : s.dropWhile pyIsSpace with
    | nil => rw [splitWs_of_drop_nil hdw]; rfl
    | cons c cs =>
      rw [splitWs_of_drop_cons hdw]
      have hc : pyIsSpace c = false := dropWhileHeadFalse _ s c cs hdw
      have hlen : (c :: cs).length ≤ s.length := hdw ▸ lengthDropLe pyIsSpace s
      unfold wordsOk
      rw [List.all_cons, Bool.and_eq_true]
      constructor
      · rw [List.takeWhile_cons_of_pos (by simp [hc])]
        rw [Bool.and_eq_true]
        constructor
        · simp
        · apply List.all_eq_true.mpr
          intro e he
          have : e ∈ (c :: cs).takeWhile (fun x => !pyIsSpace x) := by
            rw [List.takeWhile_cons_of_pos (by simp [hc])]
            exact he
          have := List.mem_takeWhile_imp this
          simpa using this
      · apply ih
        have h1 : ((c :: cs).dropWhile (fun x => !pyIsSpace x)).length ≤ cs.length := by
          rw [List.dropWhile_cons, if_pos (by simp [hc])]
          exact lengthDropLe _ cs
        have h2 : cs.length + 1 ≤ s.length := by simpa using hlen
        omega

theorem wordsOk_head {w : List Char} {rest : List (List Char)}
    (h : wordsOk (w :: rest) = true) :
    w ≠ [] ∧ ∀ c ∈ w, pyIsSpace c = false := by
  unfold wordsOk at h
  rw [List.all_cons, Bool.and_eq_true] at h
  obtain ⟨h1, _⟩ := h
  rw [Bool.and_eq_true] at h1
  constructor
  · have := h1.1
    simp only [Bool.not_eq_true'] at this
    simpa using this
  · intro c hc
    have := List.all_eq_true.mp h1.2 c hc
    simpa using this

theorem wordsOk_tail {w : List Char} {rest : List (List Char)}
    (h : wordsOk (w :: rest) = true) : wordsOk rest = true := by
  unfold wordsOk at h ⊢
  rw [List.all_cons, Bool.and_eq_true] at h
  exact h.2

theorem joinWs_ne_nil {w : List Char} (ws : List (List Char)) (hw : w ≠ []) :
    joinWs (w :: ws) ≠ [] := by
  cases ws with
  | nil => simpa [joinWs] using hw
  | cons x ws' => simp [joinWs, hw]

theorem joinWs_cons_of_ne {w : List Char} {l : List (List Char)} (hl : l ≠ []) :
    joinWs (w :: l) = w ++ ' ' :: joinWs l := by
  cases l with
  | nil => exact absurd rfl hl
  | cons x ws => rfl

theorem joinWs_onlySp : ∀ {ws : List (List Char)}, wordsOk ws = true →
    onlySp (joinWs ws) = true := by
  intro ws
  induction ws with
  | nil => intro _; rfl
  | cons w rest ih =>
    intro h
    have hw := (wordsOk_head h).2
    cases rest with
    | nil =>
      show onlySp w = true
      apply List.all_eq_true.mpr
      intro e he
      simp [hw e he]
    | cons x ws' =>
      rw [joinWs_cons_of_ne (by simp)]
      unfold onlySp
      rw [List.all_append, Bool.and_eq_true]
      constructor
      · apply List.all_eq_true.mpr
        intro e he
        simp [hw e he]
      · rw [List.all_cons, Bool.and_eq_true]
        exact ⟨by decide, ih (wordsOk_tail h)⟩

theorem joinWs_headNS : ∀ {ws : List (List Char)}, wordsOk ws = true →
    headNS (joinWs ws) = true := by
  intro ws
  cases ws with
  | nil => intro _; rfl
  | cons w rest =>
    intro h
    obtain ⟨hne, hw⟩ := wordsOk_head h
    cases rest with
    | nil => exact word_headNS hw
    | cons x ws' =>
      rw [joinWs_cons_of_ne (by simp), headNS_append_left _ hne]
      exact word_headNS hw

theorem joinWs_lastNS : ∀ {ws : List (List Char)}, wordsOk ws = true →
    lastNS (joinWs ws) = true := by
  intro ws
  induction ws with
  | nil => intro _; rfl
  | cons w rest ih =>
    intro h
    obtain ⟨hne, hw⟩ := wordsOk_head h
    cases rest with
    | nil => exact word_lastNS hne hw
    | cons x ws' =>
      rw [joinWs_cons_of_ne (by simp)]
      have hxne : joinWs (x :: ws') ≠ [] := joinWs_ne_nil _ (wordsOk_head (wordsOk_tail h)).1
      rw [lastNS_append _ (by simp), show (' ' :: joinWs (x :: ws')) = [' '] ++ joinWs (x :: ws') from rfl,
        lastNS_append _ hxne]
      exact ih (wordsOk_tail h)

theorem joinWs_noDbl : ∀ {ws : List (List Char)}, wordsOk ws = true →
    noDbl (joinWs ws) = true := by
  intro ws
  induction ws with
  | nil => intro _; rfl
  | cons w rest ih =>
    intro h
    obtain ⟨hne, hw⟩ := wordsOk_head h
    cases rest with
    | nil => exact word_noDbl hw
    | cons x ws' =>
      rw [joinWs_cons_of_ne (by simp)]
      apply noDbl_cons_word hw
      have hhd : hdSp (joinWs (x :: ws')) = false :=
        headNS_to_hdSp (joinWs_headNS (wordsOk_tail h))
      simp [noDbl, hhd]
      exact ih (wordsOk_tail h)

theorem stripPy_id {s : List Char} (h1 : headNS s = true) (h2 : lastNS s = true) :
    stripPy s = s := by
  have d1 : s.dropWhile pyIsSpace = s := by
    cases s with
    | nil => rfl
    | cons c cs =>
      have hc : pyIsSpace c = false := by simpa [headNS] using h1
      rw [List.dropWhile_cons, if_neg (by simp [hc])]
  have d2 : s.reverse.dropWhile pyIsSpace = s.reverse := by
    cases hrev : s.reverse with
    | nil => rfl
    | cons c cs =>
      have hc : pyIsSpace c = false := by
        have := h2
        unfold lastNS at this
        rw [hrev] at this
        simpa [headNS] using this
      rw [List.dropWhile_cons, if_neg (by simp [hc])]
  unfold stripPy
  rw [d1, d2, List.reverse_reverse]

theorem splitWs_cons_space (r : List Char) : splitWs (' ' :: r) = splitWs r := by
  have hd : (' ' :: r).dropWhile pyIsSpace = r.dropWhile pyIsSpace := by
    rw [List.dropWhile_cons, if_pos (by decide)]
  cases hdw : r.dropWhile pyIsSpace with
  | nil =>
    rw [splitWs_of_drop_nil (by rw [hd, hdw]), splitWs_of_drop_nil hdw]
  | cons c cs =>
    rw [splitWs_of_drop_cons (show (' ' :: r).dropWhile pyIsSpace = c :: cs from by rw [hd, hdw]),
      splitWs_of_drop_cons hdw]

theorem splitWs_of_headNS_ne {s : List Char} (hne : s ≠ []) (h : headNS s = true) :
    splitWs s ≠ [] := by
  cases s with
  | nil => exact absurd rfl hne
  | cons c cs =>
    have hc : pyIsSpace c = false := by simpa [headNS] using h
    have hdw : (c :: cs).dropWhile pyIsSpace = c :: cs := by
      rw [List.dropWhile_cons, if_neg (by simp [hc])]
    rw [splitWs_of_drop_cons hdw]
    simp

theorem joinWs_splitWs_id : ∀ (n : Nat) (s : List Char), s.length ≤ n →
    onlySp s = true → noDbl s = true → headNS s = true → lastNS s = true →
    joinWs (splitWs s) = s := by
  intro n
  induction n with
  | zero =>
    intro s hs _ _ _ _
    have hnil : s = [] := List.length_eq_zero.mp (Nat.le_zero.mp hs)
    subst hnil
    rfl
  | succ n ih =>
    intro s hs h1 h2 h3 h4
    cases s with
    | nil => rfl
    | cons c cs =>
      have hc : pyIsSpace c = false := by simpa [headNS] using h3
      have hdw : (c :: cs).dropWhile pyIsSpace = c :: cs := by
        rw [List.dropWhile_cons, if_neg (by simp [hc])]
      rw [splitWs_of_drop_cons hdw]
      have hsplit : (c :: cs).takeWhile (fun x => !pyIsSpace x) ++
          (c :: cs).dropWhile (fun x => !pyIsSpace x) = c :: cs :=
        List.takeWhile_append_dropWhile _ _
      cases hrest : (c :: cs).dropWhile (fun x => !pyIsSpace x) with
      | nil =>
        rw [splitWs_nil]
        show (c :: cs).takeWhile (fun x => !pyIsSpace x) = c :: cs
        have h5 := hsplit
        rw [hrest, List.append_nil] at h5
        exact h5
      | cons d r' =>
        have hd : (fun x => !pyIsSpace x) d = false :=
          dropWhileHeadFalse _ (c :: cs) d r' hrest
        have hdsp : pyIsSpace d = true := by simpa using hd
        have hdmem : d ∈ c :: cs := by
          rw [← hsplit, hrest]
          simp
        have hdspace : d = ' ' := onlySp_mem h1 hdmem hdsp
        subst hdspace
        cases r' with
        | nil =>
          exfalso
          have hseq : (c :: cs).takeWhile (fun x => !pyIsSpace x) ++ [' '] = c :: cs := by
            rw [← hrest]
            exact hsplit
          have hbad : lastNS (c :: cs) = false := by
            rw [← hseq, lastNS_append _ (by simp)]
            rfl
          rw [hbad] at h4
          cases h4
        | cons e r'' =>
          have hseq : (c :: cs).takeWhile (fun x => !pyIsSpace x) ++ ' ' :: e :: r'' = c :: cs := by
            rw [← hrest]
            exact hsplit
          have hnd : noDbl (' ' :: e :: r'') = true :=
            noDbl_suffix (show noDbl ((c :: cs).takeWhile (fun x => !pyIsSpace x) ++
              ' ' :: e :: r'') = true from by rw [hseq]; exact h2)
          have hhd : hdSp (e :: r'') = false := by
            cases hq : hdSp (e :: r'') with
            | false => rfl
            | true =>
              rw [show noDbl (' ' :: e :: r'') =
                (!((' ' == ' ') && hdSp (e :: r'')) && noDbl (e :: r'')) from rfl, hq] at hnd
              simp at hnd
          have hes : e ≠ ' ' := by
            intro he
            rw [he] at hhd
            simp [hdSp] at hhd
          have hesp : pyIsSpace e = false := by
            cases hq : pyIsSpace e with
            | false => rfl
            | true =>
              have hemem : e ∈ c :: cs := by
                rw [← hsplit, hrest]
                simp
              exact absurd (onlySp_mem h1 hemem hq) hes
          have hseq2 : ((c :: cs).takeWhile (fun x => !pyIsSpace x) ++ [' ']) ++ e :: r'' =
              c :: cs := by
            rw [List.append_assoc, List.singleton_append]
            exact hseq
          have c1 : onlySp (e :: r'') = true :=
            onlySp_suffix (show onlySp (((c :: cs).takeWhile (fun x => !pyIsSpace x) ++ [' ']) ++
              e :: r'') = true from by rw [hseq2]; exact h1)
          have c2 : noDbl (e :: r'') = true := noDbl_tail hnd
          have c3 : headNS (e :: r'') = true := by simp [headNS, hesp]
          have c4 : lastNS (e :: r'') = true := by
            have h7 := h4
            rw [← hseq, lastNS_append _ (by simp),
              show (' ' :: e :: r'') = [' '] ++ e :: r'' from rfl,
              lastNS_append _ (by simp)] at h7
            exact h7
          have hlen : (e :: r'').length ≤ n := by
            have h8 := congrArg List.length hseq
            have hwlen : 1 ≤ ((c :: cs).takeWhile fun x => !pyIsSpace x).length := by
              rw [List.takeWhile_cons_of_pos (by simp [hc])]
              simp
            simp only [List.length_append, List.length_cons] at h8 hs ⊢
            omega
          rw [splitWs_cons_space]
          have hne2 : splitWs (e :: r'') ≠ [] := splitWs_of_headNS_ne (by simp) c3
          rw [joinWs_cons_of_ne hne2, ih _ hlen c1 c2 c3 c4]
          exact hseq

/-! ### `replAll` preserves the canonical form, when the replacement is a
word, a single space, and a word -/

theorem replAll_ne_nil {k v : List Char} (hvne : v ≠ []) {s : List Char} (hs : s ≠ []) :
    replAll k v s ≠ [] := by
  cases s with
  | nil => exact absurd rfl hs
  | cons c cs =>
    cases hp : isPref k (c :: cs) with
    | true =>
      rw [replAll_cons_pos v hp]
      cases hv : v with
      | nil => exact absurd hv hvne
      | cons x xs => simp
    | false =>
      rw [replAll_cons_neg v hp]
      simp

theorem onlySp_replAll {k v : List Char} (hv : onlySp v = true) :
    ∀ (n : Nat) (s : List Char), s.length ≤ n → onlySp s = true →
      onlySp (replAll k v s) = true := by
  intro n
  induction n with
  | zero =>
    intro s hs h
    have hnil : s = [] := List.length_eq_zero.mp (Nat.le_zero.mp hs)
    subst hnil
    rwa [replAll_nil]
  | succ n ih =>
    intro s hs h
    cases s with
    | nil => rwa [replAll_nil]
    | cons c cs =>
      have hcs : cs.length ≤ n := by simp only [List.length_cons] at hs; omega
      cases hp : isPref k (c :: cs) with
      | true =>
        rw [replAll_cons_pos v hp]
        unfold onlySp
        rw [List.all_append, Bool.and_eq_true]
        refine ⟨hv, ?_⟩
        have hd : (cs.drop (k.length - 1)).length ≤ n := by
          rw [List.length_drop]; omega
        exact ih _ hd (onlySp_drop _ (onlySp_suffix (show onlySp ([c] ++ cs) = true from h)))
      | false =>
        rw [replAll_cons_neg v hp]
        unfold onlySp at h ⊢
        rw [List.all_cons, Bool.and_eq_true] at h ⊢
        exact ⟨h.1, ih cs hcs h.2⟩

theorem hdSp_replAll {k k1 k2 v : List Char} (hv : v = k1 ++ ' ' :: k2) (hk1ne : k1 ≠ [])
    (hk1sp : ∀ c ∈ k1, pyIsSpace c = false) {s : List Char} (h : hdSp s = false) :
    hdSp (replAll k v s) = false := by
  cases s with
  | nil => rw [replAll_nil]; rfl
  | cons c cs =>
    cases hp : isPref k (c :: cs) with
    | true =>
      rw [replAll_cons_pos v hp, hv]
      cases hk1 : k1 with
      | nil => exact absurd hk1 hk1ne
      | cons h1 t1 =>
        rw [hdSp_append_left _ (by simp), hdSp_append_left _ (by simp)]
        exact word_hdSp (fun e he => hk1sp e (by simp [hk1, he]))
    | false =>
      rw [replAll_cons_neg v hp]
      simpa [hdSp] using h

theorem headNS_replAll {k k1 k2 v : List Char} (hv : v = k1 ++ ' ' :: k2) (hk1ne : k1 ≠ [])
    (hk1sp : ∀ c ∈ k1, pyIsSpace c = false) {s : List Char} (h : headNS s = true) :
    headNS (replAll k v s) = true := by
  cases s with
  | nil => rw [replAll_nil]; rfl
  | cons c cs =>
    cases hp : isPref k (c :: cs) with
    | true =>
      rw [replAll_cons_pos v hp, hv]
      rw [headNS_append_left _ (by cases k1 with
        | nil => exact absurd rfl hk1ne
        | cons x xs => simp), headNS_append_left _ hk1ne]
      exact word_headNS hk1sp
    | false =>
      rw [replAll_cons_neg v hp]
      simpa [headNS] using h

theorem lastNS_replAll {k k1 k2 v : List Char} (hv : v = k1 ++ ' ' :: k2) (hkne : k ≠ [])
    (hk2ne : k2 ≠ []) (hk2sp : ∀ c ∈ k2, pyIsSpace c = false) :
    ∀ (n : Nat) (s : List Char), s.length ≤ n → lastNS s = true →
      lastNS (replAll k v s) = true := by
  have hvne : v ≠ [] := by
    rw [hv]
    cases k1 <;> simp
  intro n
  induction n with
  | zero =>
    intro s hs h
    have hnil : s = [] := List.length_eq_zero.mp (Nat.le_zero.mp hs)
    subst hnil
    rwa [replAll_nil]
  | succ n ih =>
    intro s hs h
    cases s with
    | nil => rwa [replAll_nil]
    | cons c cs =>
      have hcs : cs.length ≤ n := by simp only [List.length_cons] at hs; omega
      have hk1 : 1 ≤ k.length := by
        cases k with
        | nil => exact absurd rfl hkne
        | cons x xs => simp
      cases hp : isPref k (c :: cs) with
      | true =>
        rw [replAll_cons_pos v hp]
        have hdropeq : cs.drop (k.length - 1) = (c :: cs).drop k.length := by
          conv_rhs => rw [show k.length = (k.length - 1) + 1 from by omega]
          rw [List.drop_succ_cons]
        by_cases hnil : cs.drop (k.length - 1) = []
        · rw [hnil, replAll_nil, List.append_nil, hv, lastNS_append _ (by simp),
            show (' ' :: k2) = [' '] ++ k2 from rfl, lastNS_append _ hk2ne]
          exact word_lastNS hk2ne hk2sp
        · have hrne : replAll k v (cs.drop (k.length - 1)) ≠ [] := replAll_ne_nil hvne hnil
          rw [lastNS_append _ hrne]
          apply ih _ (by rw [List.length_drop]; omega)
          rw [hdropeq]
          rw [hdropeq] at hnil
          exact lastNS_drop _ h hnil
      | false =>
        rw [replAll_cons_neg v hp]
        cases hcse : cs with
        | nil =>
          subst hcse
          rw [replAll_nil]
          exact h
        | cons e es =>
          subst hcse
          have hcne : (e :: es) ≠ [] := by simp
          have hrne : replAll k v (e :: es) ≠ [] := replAll_ne_nil hvne hcne
          rw [show c :: replAll k v (e :: es) = [c] ++ replAll k v (e :: es) from rfl,
            lastNS_append _ hrne]
          apply ih _ hcs
          have h9 := h
          rw [show c :: e :: es = [c] ++ e :: es from rfl, lastNS_append _ hcne] at h9
          exact h9

theorem noDbl_replAll {k k1 k2 v : List Char} (hv : v = k1 ++ ' ' :: k2)
    (hk1ne : k1 ≠ []) (hk1sp : ∀ c ∈ k1, pyIsSpace c = false)
    (hk2ne : k2 ≠ []) (hk2sp : ∀ c ∈ k2, pyIsSpace c = false) :
    ∀ (n : Nat) (s : List Char), s.length ≤ n → noDbl s = true →
      noDbl (replAll k v s) = true := by
  intro n
  induction n with
  | zero =>
    intro s hs h
    have hnil : s = [] := List.length_eq_zero.mp (Nat.le_zero.mp hs)
    subst hnil
    rwa [replAll_nil]
  | succ n ih =>
    intro s hs h
    cases s with
    | nil => rwa [replAll_nil]
    | cons c cs =>
      have hcs : cs.length ≤ n := by simp only [List.length_cons] at hs; omega
      cases hp : isPref k (c :: cs) with
      | true =>
        have hd : (cs.drop (k.length - 1)).length ≤ n := by
          rw [List.length_drop]; omega
        have hrec := ih _ hd (noDbl_drop _ (noDbl_tail h))
        rw [hv] at hrec
        rw [replAll_cons_pos v hp, hv, List.append_assoc, List.cons_append]
        apply noDbl_cons_word hk1sp
        have hh2 : hdSp (k2 ++ replAll k (k1 ++ ' ' :: k2) (cs.drop (k.length - 1))) = false := by
          rw [hdSp_append_left _ hk2ne]
          exact word_hdSp hk2sp
        rw [show noDbl (' ' :: (k2 ++ replAll k (k1 ++ ' ' :: k2) (cs.drop (k.length - 1)))) =
          (!((' ' == ' ') && hdSp (k2 ++ replAll k (k1 ++ ' ' :: k2) (cs.drop (k.length - 1)))) &&
            noDbl (k2 ++ replAll k (k1 ++ ' ' :: k2) (cs.drop (k.length - 1)))) from rfl, hh2]
        simp only [Bool.and_false, Bool.not_false, Bool.true_and]
        exact noDbl_cons_word hk2sp hrec
      | false =>
        rw [replAll_cons_neg v hp]
        have h2 := ih cs hcs (noDbl_tail h)
        rw [show noDbl (c :: replAll k v cs) =
          (!((c == ' ') && hdSp (replAll k v cs)) && noDbl (replAll k v cs)) from rfl]
        cases hcsp : (c == ' ') with
        | false => simp [hcsp, h2]
        | true =>
          have hhdcs : hdSp cs = false := by
            rw [show noDbl (c :: cs) = (!((c == ' ') && hdSp cs) && noDbl cs) from rfl,
              hcsp] at h
            cases hq : hdSp cs with
            | false => rfl
            | true => rw [hq] at h; simp at h
          have h3 : hdSp (replAll k v cs) = false := hdSp_replAll hv hk1ne hk1sp hhdcs
          simp [hcsp, h3, h2]

/-! ### Assembly: the output of `clean_command` is a fixed point -/

theorem clean_command_eq (s : List Char) : clean_command s = replChain (normPy s) := rfl

theorem stage_canon (k k1 k2 v : List Char) (hv : v = k1 ++ ' ' :: k2)
    (hkne : k ≠ []) (hk1ne : k1 ≠ []) (hk1sp : ∀ c ∈ k1, pyIsSpace c = false)
    (hk2ne : k2 ≠ []) (hk2sp : ∀ c ∈ k2, pyIsSpace c = false)
    (t : List Char) (h1 : onlySp t = true) (h2 : noDbl t = true)
    (h3 : headNS t = true) (h4 : lastNS t = true) :
    onlySp (replAll k v t) = true ∧ noDbl (replAll k v t) = true ∧
    headNS (replAll k v t) = true ∧ lastNS (replAll k v t) = true := by
  have hvsp : onlySp v = true := by
    apply List.all_eq_true.mpr
    intro c hc
    rw [hv] at hc
    rcases List.mem_append.mp hc with hc1 | hc2
    · simp [hk1sp c hc1]
    · rcases List.mem_cons.mp hc2 with hsp' | hc3
      · subst hsp'; decide
      · simp [hk2sp c hc3]
  exact ⟨onlySp_replAll hvsp _ _ (le_refl _) h1,
    noDbl_replAll hv hk1ne hk1sp hk2ne hk2sp _ _ (le_refl _) h2,
    headNS_replAll hv hk1ne hk1sp h3,
    lastNS_replAll hv hkne hk2ne hk2sp _ _ (le_refl _) h4⟩

theorem stage_kill (k k1 k2 v : List Char) (hv : v = k1 ++ ' ' :: k2) (hkk : k = k1 ++ k2)
    (hk2 : k2 ≠ []) (hsp : ∀ c ∈ k, c ≠ ' ') (hnt : noTailPref k k1 = true)
    (hsf : spliceFree k2 k = true) (s : List Char) :
    occursIn k (replAll k v s) = false :=
  replAll_no_self hv hkk hk2 hsp hnt hsf s.length s (le_refl _)

theorem stage_preserve (k k1 k2 v m : List Char) (hv : v = k1 ++ ' ' :: k2)
    (hm : m ≠ []) (hmsp : ∀ c ∈ m, c ≠ ' ') (h1 : occursIn m k1 = false)
    (hsf : spliceFree k2 m = true) (hnt : noTailPref m k1 = true)
    (s : List Char) (hocc : occursIn m s = false) :
    occursIn m (replAll k v s) = false :=
  replAll_no_other hv hm hmsp h1 hsf hnt s.length s (le_refl _) hocc

theorem replChain_facts (u : List Char) (h1 : onlySp u = true) (h2 : noDbl u = true)
    (h3 : headNS u = true) (h4 : lastNS u = true) :
    (onlySp (replChain u) = true ∧ noDbl (replChain u) = true ∧
     headNS (replChain u) = true ∧ lastNS (replChain u) = true) ∧
    occursIn ("ls-la".data) (replChain u) = false ∧
    occursIn ("cd~".data) (replChain u) = false ∧
    occursIn ("cd..".data) (replChain u) = false ∧
    occursIn ("rm-rf".data) (replChain u) = false := by
  obtain ⟨a1, a2, a3, a4⟩ := stage_canon ("ls-la".data) ("ls".data) ("-la".data)
    ("ls -la".data) (by decide) (by decide) (by decide) (by decide) (by decide) (by decide)
    u h1 h2 h3 h4
  obtain ⟨b1, b2, b3, b4⟩ := stage_canon ("cd~".data) ("cd".data) ("~".data)
    ("cd ~".data) (by decide) (by decide) (by decide) (by decide) (by decide) (by decide)
    (replAll ("ls-la".data) ("ls -la".data) u) a1 a2 a3 a4
  obtain ⟨c1, c2, c3, c4⟩ := stage_canon ("cd..".data) ("cd".data) ("..".data)
    ("cd ..".data) (by decide) (by decide) (by decide) (by decide) (by decide) (by decide)
    (replAll ("cd~".data) ("cd ~".data) (replAll ("ls-la".data) ("ls -la".data) u))
    b1 b2 b3 b4
  obtain ⟨d1, d2, d3, d4⟩ := stage_canon ("rm-rf".data) ("rm".data) ("-rf".data)
    ("rm -rf".data) (by decide) (by decide) (by decide) (by decide) (by decide) (by decide)
    (replAll ("cd..".data) ("cd ..".data)
      (replAll ("cd~".data) ("cd ~".data) (replAll ("ls-la".data) ("ls -la".data) u)))
    c1 c2 c3 c4
  have o11 : occursIn ("ls-la".data) (replAll ("ls-la".data) ("ls -la".data) u) = false :=
    stage_kill ("ls-la".data) ("ls".data) ("-la".data) ("ls -la".data)
      (by decide) (by decide) (by decide) (by decide) (by decide) (by decide) u
  have o12 : occursIn ("ls-la".data)
      (replAll ("cd~".data) ("cd ~".data) (replAll ("ls-la".data) ("ls -la".data) u)) = false :=
    stage_preserve ("cd~".data) ("cd".data) ("~".data) ("cd ~".data) ("ls-la".data)
      (by decide) (by decide) (by decide) (by decide) (by decide) (by decide) _ o11
  have o13 : occursIn ("ls-la".data)
      (replAll ("cd..".data) ("cd ..".data)
        (replAll ("cd~".data) ("cd ~".data) (replAll ("ls-la".data) ("ls -la".data) u))) = false :=
    stage_preserve ("cd..".data) ("cd".data) ("..".data) ("cd ..".data) ("ls-la".data)
      (by decide) (by decide) (by decide) (by decide) (by decide) (by decide) _ o12
  have o14 : occursIn ("ls-la".data) (replChain u) = false :=
    stage_preserve ("rm-rf".data) ("rm".data) ("-rf".data) ("rm -rf".data) ("ls-la".data)
      (by decide) (by decide) (by decide) (by decide) (by decide) (by decide) _ o13
  have o22 : occursIn ("cd~".data)
      (replAll ("cd~".data) ("cd ~".data) (replAll ("ls-la".data) ("ls -la".data) u)) = false :=
    stage_kill ("cd~".data) ("cd".data) ("~".data) ("cd ~".data)
      (by decide) (by decide) (by decide) (by decide) (by decide) (by decide) _
  have o23 : occursIn ("cd~".data)
      (replAll ("cd..".data) ("cd ..".data)
        (replAll ("cd~".data) ("cd ~".data) (replAll ("ls-la".data) ("ls -la".data) u))) = false :=
    stage_preserve ("cd..".data) ("cd".data) ("..".data) ("cd ..".data) ("cd~".data)
      (by decide) (by decide) (by decide) (by decide) (by decide) (by decide) _ o22
  have o24 : occursIn ("cd~".data) (replChain u) = false :=
    stage_preserve ("rm-rf".data) ("rm".data) ("-rf".data) ("rm -rf".data) ("cd~".data)
      (by decide) (by decide) (by decide) (by decide) (by decide) (by decide) _ o23
  have o33 : occursIn ("cd..".data)
      (replAll ("cd..".data) ("cd ..".data)
        (replAll ("cd~".data) ("cd ~".data) (replAll ("ls-la".data) ("ls -la".data) u))) = false :=
    stage_kill ("cd..".data) ("cd".data) ("..".data) ("cd ..".data)
      (by decide) (by decide) (by decide) (by decide) (by decide) (by decide) _
  have o34 : occursIn ("cd..".data) (replChain u) = false :=
    stage_preserve ("rm-rf".data) ("rm".data) ("-rf".data) ("rm -rf".data) ("cd..".data)
      (by decide) (by decide) (by decide) (by decide) (by decide) (by decide) _ o33
  have o44 : occursIn ("rm-rf".data) (replChain u) = false :=
    stage_kill ("rm-rf".data) ("rm".data) ("-rf".data) ("rm -rf".data)
      (by decide) (by decide) (by decide) (by decide) (by decide) (by decide) _
  exact ⟨⟨d1, d2, d3, d4⟩, o14, o24, o34, o44⟩

theorem clean_command_canon_all (s : List Char) :
    (onlySp (clean_command s) = true ∧ noDbl (clean_command s) = true ∧
     headNS (clean_command s) = true ∧ lastNS (clean_command s) = true) ∧
    occursIn ("ls-la".data) (clean_command s) = false ∧
    occursIn ("cd~".data) (clean_command s) = false ∧
    occursIn ("cd..".data) (clean_command s) = false ∧
    occursIn ("rm-rf".data) (clean_command s) = false := by
  rw [clean_command_eq]
  have hw : wordsOk (splitWs (stripPy s)) = true :=
    wordsOk_splitWs (stripPy s).length (stripPy s) (le_refl _)
  exact replChain_facts (normPy s) (joinWs_onlySp hw) (joinWs_noDbl hw)
    (joinWs_headNS hw) (joinWs_lastNS hw)

theorem clean_command_fixed (t : List Char) (h1 : onlySp t = true) (h2 : noDbl t = true)
    (h3 : headNS t = true) (h4 : lastNS t = true)
    (o1 : occursIn ("ls-la".data) t = false) (o2 : occursIn ("cd~".data) t = false)
    (o3 : occursIn ("cd..".data) t = false) (o4 : occursIn ("rm-rf".data) t = false) :
    clean_command t = t := by
  rw [clean_command_eq]
  unfold replChain normPy
  rw [stripPy_id h3 h4, joinWs_splitWs_id t.length t (le_refl _) h1 h2 h3 h4,
    replAll_id o1, replAll_id o2, replAll_id o3, replAll_id o4]

/-! ### The claims -/

/-- Claim C1, counterexample: `"rm -rf /"` is classified dangerous, yet a
call of `execute_with_confirmation` with `auto_confirm = true` executes it
(spawning a process) without ever consulting the confirmation capability.
The claimed invariant "the confirmation prompt always precedes execution
for dangerous commands, even when the caller passes auto_confirm=true" is
therefore false of the code. -/
theorem C1_counterexample :
    (is_dangerous ("rm -rf /".data)).1 = true ∧
    (execute_with_confirmation ("rm -rf /".data) true ("".data)
      (.completed 0 [] []) []).confirmAsked = false ∧
    (execute_with_confirmation ("rm -rf /".data) true ("".data)
      (.completed 0 [] []) []).execCalled = true ∧
    (execute_with_confirmation ("rm -rf /".data) true ("".data)
      (.completed 0 [] []) []).spawnCount = 1 := by
  refine ⟨by decide, by decide, by decide, by decide⟩

/-- Claim C1 (amended): a dangerous command is routed through the
confirmation prompt exactly when the caller does not set `auto_confirm`;
with `auto_confirm = true` (e.g. because the provider's
`safe_to_auto_execute` flag was set) the command is handed to the Process
Runner without the confirmation capability being consulted. -/
theorem C1_amended_confirmation_iff_not_auto (c resp : List Char) (pr : ProcResult)
    (history : List Outcome) (hd : (is_dangerous c).1 = true) :
    (execute_with_confirmation c false resp pr history).confirmAsked = true ∧
    (execute_with_confirmation c true resp pr history).confirmAsked = false := by
  constructor
  · unfold execute_with_confirmation
    rw [if_pos (by simp [hd])]
    cases hq : (lowerL resp == "y".data) with
    | false => rw [if_pos (by simp [hq])]
    | true => rw [if_neg (by simp [hq])]
  · unfold execute_with_confirmation
    rw [if_neg (by simp)]

/-- Witness for the amended C1 theorem at the concrete dangerous command
`"rm -rf /"`. -/
theorem C1_witness :
    (is_dangerous ("rm -rf /".data)).1 = true ∧
    ((execute_with_confirmation ("rm -rf /".data) false ("n".data)
        (.completed 0 [] []) []).confirmAsked = true ∧
      (execute_with_confirmation ("rm -rf /".data) true ("n".data)
        (.completed 0 [] []) []).confirmAsked = false) :=
  ⟨by decide,
    C1_amended_confirmation_iff_not_auto ("rm -rf /".data) ("n".data)
      (.completed 0 [] []) [] (by decide)⟩

/-- Claim C2, counterexample: in an interaction where a failing command's
repair also fails and the user accepts help twice, `execute_command`
invokes the external suggestion provider twice in one top-level call, so
"the provider is invoked at most once and there is no further repair
recursion" is false of the code (the source recurses without a depth
bound). -/
theorem C2_counterexample :
    ¬ ((execute_command ("badcmd".data) false
        [ ⟨[], .completed 1 [] ("err".data), "y".data, "badcmd2".data, true⟩,
          ⟨[], .completed 1 [] ("err".data), "y".data, "badcmd3".data, true⟩ ]).2 ≤ 1) := by
  decide

/-- Claim C2 (amended): each recursion level of `execute_command` consults
the external provider at most once, but the repair recursion is unbounded
in depth; the number of provider invocations in one top-level call is
bounded only by the number of interaction rounds the session supplies. -/
theorem C2_amended_calls_le_rounds :
    ∀ (rounds : List Round) (cmd : List Char) (safe : Bool),
      (execute_command cmd safe rounds).2 ≤ rounds.length := by
  intro rounds
  induction rounds with
  | nil => intro cmd safe; simp [execute_command]
  | cons r rest ih =>
    intro cmd safe
    show (execute_command cmd safe (r :: rest)).2 ≤ rest.length + 1
    simp only [execute_command]
    split
    · split
      · split
        · show (execute_command r.suggCmd false rest).2 + 1 ≤ rest.length + 1
          have := ih r.suggCmd false
          omega
        · show 1 ≤ rest.length + 1
          omega
      · show 0 ≤ rest.length + 1
        omega
    · show 0 ≤ rest.length + 1
      omega

/-- Claim C3: the validator's injection check tests for the literal
five-character strings `$(...)` and the brace analogue, not for the
two-character substitution openers, so a command containing `$(` (here
`echo $(whoami)`, a real command substitution) is accepted as `Valid`,
contradicting the claim and the validator's own stated purpose of
rejecting shell-injection markers. -/
theorem C3_code_bug_dollar_paren_accepted :
    occursIn ("$(".data) ("echo $(whoami)".data) = true ∧
    validate_command ("echo $(whoami)".data) = (true, "Valid".data) := by
  refine ⟨by decide, by decide⟩

/-- Claim C4, counterexample: a non-dry-run call whose process times out
produces an outcome (returncode -1) but appends nothing to the execution
log, so after one non-dry-run call the log does not hold that outcome. -/
theorem C4_counterexample :
    (execute ("ls".data) false ProcResult.timedOut []).hist = [] ∧
    (execute ("ls".data) false ProcResult.timedOut []).out.returncode = -1 ∧
    (execute ("ls".data) false ProcResult.timedOut []).out.success = false := by
  refine ⟨by decide, by decide, by decide⟩

/-- Claim C4 (amended): the execution log receives exactly the outcomes of
non-dry-run calls whose process ran to completion (normal `subprocess.run`
return), appended in arrival order; validation rejections, timeouts, spawn
failures, and dry runs are not logged.  `appended` computes the entries one
call contributes and `loggedAll` concatenates them in call order. -/
theorem C4_amended_log_is_completed_outcomes_in_order :
    (∀ (c : List Char) (dry : Bool) (pr : ProcResult) (history : List Outcome),
      (execute c dry pr history).hist = history ++ appended c dry pr) ∧
    (∀ (calls : List (List Char × Bool × ProcResult)) (history : List Outcome),
      runCalls calls history = history ++ loggedAll calls) ∧
    (∀ (c : List Char) (pr : ProcResult) (history : List Outcome),
      (execute c true pr history).hist = history) ∧
    (∀ (c : List Char) (history : List Outcome),
      (execute c false ProcResult.timedOut history).hist = history) ∧
    (∀ (c : List Char) (m : List Char) (history : List Outcome),
      (execute c false (ProcResult.spawnError m) history).hist = history) := by
  have hsingle : ∀ (c : List Char) (dry : Bool) (pr : ProcResult) (history : List Outcome),
      (execute c dry pr history).hist = history ++ appended c dry pr := by
    intro c dry pr history
    show (execute c dry pr history).hist = history ++ (execute c dry pr []).hist
    unfold execute
    cases hvr : (validate_command c).1 with
    | false => simp [hvr]
    | true =>
      cases dry with
      | true => simp [hvr]
      | false => cases pr <;> simp [hvr]
  have happ_dry : ∀ (c : List Char) (pr : ProcResult), appended c true pr = [] := by
    intro c pr
    unfold appended execute
    cases hvr : (validate_command c).1 with
    | false => simp [hvr]
    | true => simp [hvr]
  have happ_to : ∀ c : List Char, appended c false ProcResult.timedOut = [] := by
    intro c
    unfold appended execute
    cases hvr : (validate_command c).1 with
    | false => simp [hvr]
    | true => simp [hvr]
  have happ_sp : ∀ (c m : List Char), appended c false (ProcResult.spawnError m) = [] := by
    intro c m
    unfold appended execute
    cases hvr : (validate_command c).1 with
    | false => simp [hvr]
    | true => simp [hvr]
  refine ⟨hsingle, ?_, ?_, ?_, ?_⟩
  · intro calls
    induction calls with
    | nil => intro history; simp [runCalls, loggedAll]
    | cons x rest ih =>
      intro history
      obtain ⟨c, dry, pr⟩ := x
      show runCalls rest (execute c dry pr history).hist =
        history ++ (appended c dry pr ++ loggedAll rest)
      rw [ih, hsingle, List.append_assoc]
  · intro c pr history
    rw [hsingle, happ_dry, List.append_nil]
  · intro c history
    rw [hsingle, happ_to, List.append_nil]
  · intro c m history
    rw [hsingle, happ_sp, List.append_nil]

/-- Claim C5: deny-by-default.  For a dangerous command with no
auto-confirmation, any confirmation answer whose lowercasing is not the
explicit affirmative `"y"` yields the cancelled outcome (success `false`,
returncode `-1`) and `execute` is never invoked, so no process is
spawned. -/
theorem C5_deny_by_default (c resp : List Char) (pr : ProcResult) (history : List Outcome)
    (hd : (is_dangerous c).1 = true) (hr : lowerL resp ≠ "y".data) :
    (execute_with_confirmation c false resp pr history).out.success = false ∧
    (execute_with_confirmation c false resp pr history).out.returncode = -1 ∧
    (execute_with_confirmation c false resp pr history).execCalled = false ∧
    (execute_with_confirmation c false resp pr history).spawnCount = 0 := by
  have hq : (lowerL resp == "y".data) = false := by
    cases hb : (lowerL resp == "y".data) with
    | false => rfl
    | true => exact absurd (by simpa using hb) hr
  unfold execute_with_confirmation
  rw [if_pos (by simp [hd]), if_pos (by simp [hq])]
  exact ⟨rfl, rfl, rfl, rfl⟩

/-- Witness for C5 at `"rm -rf /"` with answer `"n"`. -/
theorem C5_witness :
    ((is_dangerous ("rm -rf /".data)).1 = true ∧ lowerL ("n".data) ≠ "y".data) ∧
    ((execute_with_confirmation ("rm -rf /".data) false ("n".data)
        (.completed 0 [] []) []).out.success = false ∧
      (execute_with_confirmation ("rm -rf /".data) false ("n".data)
        (.completed 0 [] []) []).out.returncode = -1 ∧
      (execute_with_confirmation ("rm -rf /".data) false ("n".data)
        (.completed 0 [] []) []).execCalled = false ∧
      (execute_with_confirmation ("rm -rf /".data) false ("n".data)
        (.completed 0 [] []) []).spawnCount = 0) :=
  ⟨⟨by decide, by decide⟩,
    C5_deny_by_default ("rm -rf /".data) ("n".data) (.completed 0 [] []) []
      (by decide) (by decide)⟩

/-- Claim C6, counterexample: a dry-run call on the empty command returns
a validation-failure outcome with success `false` and returncode `-1`, so
"dry-run always returns success=true and exit code 0 for every command
text" is false of the code (validation runs before the dry-run branch). -/
theorem C6_counterexample :
    (execute ("".data) true (.completed 0 [] []) []).out.success = false ∧
    (execute ("".data) true (.completed 0 [] []) []).out.returncode = -1 := by
  refine ⟨by decide, by decide⟩

/-- Claim C6 (amended): a dry-run call never spawns a process (for any
command text), and for every command accepted by the validator it returns
success `true`, exit code 0, and the descriptive "would execute" message
as stdout. -/
theorem C6_amended_dry_run_purity (c : List Char) (pr : ProcResult) (history : List Outcome)
    (hvalid : (validate_command c).1 = true) :
    (∀ (c2 : List Char) (pr2 : ProcResult) (h2 : List Outcome),
      (execute c2 true pr2 h2).spawnCount = 0) ∧
    (execute c true pr history).out.success = true ∧
    (execute c true pr history).out.returncode = 0 ∧
    (execute c true pr history).out.stdout = "[DRY RUN] Would execute: ".data ++ c := by
  constructor
  · intro c2 pr2 h2
    unfold execute
    cases hvr : (validate_command c2).1 with
    | false => simp [hvr]
    | true => simp [hvr]
  · unfold execute
    rw [if_neg (by simp [hvalid]), if_pos rfl]
    exact ⟨rfl, rfl, rfl⟩

/-- Witness for the amended C6 theorem at `"ls -la"`. -/
theorem C6_witness :
    (validate_command ("ls -la".data)).1 = true ∧
    ((∀ (c2 : List Char) (pr2 : ProcResult) (h2 : List Outcome),
        (execute c2 true pr2 h2).spawnCount = 0) ∧
      (execute ("ls -la".data) true (.completed 0 [] []) []).out.success = true ∧
      (execute ("ls -la".data) true (.completed 0 [] []) []).out.returncode = 0 ∧
      (execute ("ls -la".data) true (.completed 0 [] []) []).out.stdout =
        "[DRY RUN] Would execute: ".data ++ "ls -la".data) :=
  ⟨by decide, C6_amended_dry_run_purity ("ls -la".data) (.completed 0 [] []) [] (by decide)⟩

/-- Claim C7: when the timeout elapses (the `subprocess.TimeoutExpired`
branch) on a validated command, `execute` returns success `false`,
returncode `-1`, empty stdout, and the timeout message as stderr, and the
runner spawns exactly one process for the attempt — it never retries. -/
theorem C7_timeout_outcome (c : List Char) (history : List Outcome)
    (hvalid : (validate_command c).1 = true) :
    (execute c false ProcResult.timedOut history).out.success = false ∧
    (execute c false ProcResult.timedOut history).out.returncode = -1 ∧
    (execute c false ProcResult.timedOut history).out.stdout = [] ∧
    (execute c false ProcResult.timedOut history).out.stderr =
      "Command timed out after 30 seconds".data ∧
    (execute c false ProcResult.timedOut history).spawnCount = 1 := by
  unfold execute
  rw [if_neg (by simp [hvalid]), if_neg (by simp)]
  exact ⟨rfl, rfl, rfl, rfl, rfl⟩

/-- Witness for C7 at `"sleep 60"`. -/
theorem C7_witness :
    (validate_command ("sleep 60".data)).1 = true ∧
    ((execute ("sleep 60".data) false ProcResult.timedOut []).out.success = false ∧
      (execute ("sleep 60".data) false ProcResult.timedOut []).out.returncode = -1 ∧
      (execute ("sleep 60".data) false ProcResult.timedOut []).out.stdout = [] ∧
      (execute ("sleep 60".data) false ProcResult.timedOut []).out.stderr =
        "Command timed out after 30 seconds".data ∧
      (execute ("sleep 60".data) false ProcResult.timedOut []).spawnCount = 1) :=
  ⟨by decide, C7_timeout_outcome ("sleep 60".data) [] (by decide)⟩

/-- Claim C8, counterexample: the risk reason produced for `"rm -rf /"` is
not the claimed list `["Matches dangerous pattern: rm -rf /"]` — the
message interpolates the regex source text, not the plain command. -/
theorem C8_counterexample :
    (is_dangerous ("rm -rf /".data)).2 ≠ ["Matches dangerous pattern: rm -rf /".data] := by
  decide

/-- Claim C8 (amended): `classify("rm -rf /")` returns dangerous with the
single reason `"Matches dangerous pattern: rm\s+-rf\s+/"` — the message
embeds the matched regex pattern's source text. -/
theorem C8_amended_reason_names_pattern :
    is_dangerous ("rm -rf /".data) =
      (true, ["Matches dangerous pattern: rm\\s+-rf\\s+/".data]) := by
  decide

/-- Claim C9: `suggest_fix` is not total — on an outcome whose stderr
contains "command not found" while the command field is empty, the source's
`command.split()[0]` raises `IndexError` (modelled as `Except.error`)
instead of returning a list of hints, contradicting the spec's
"the engine's public contract always returns a value, never aborts". -/
theorem C9_code_bug_index_error :
    occursIn ("command not found".data) (lowerL ("bash: command not found".data)) = true ∧
    suggest_fix ("bash: command not found".data) ("".data) =
      Except.error ("IndexError: list index out of range".data) :=
  ⟨by decide, rfl⟩

/-- Claim C10: `clean_command` is idempotent — its output is already
stripped, has single internal spaces only, and contains none of the four
typo patterns, so a second application changes nothing. -/
theorem C10_clean_command_idem (s : List Char) :
    clean_command (clean_command s) = clean_command s := by
  obtain ⟨⟨h1, h2, h3, h4⟩, o1, o2, o3, o4⟩ := clean_command_canon_all s
  exact clean_command_fixed _ h1 h2 h3 h4 o1 o2 o3 o4

end ShellAI
